import Mathlib

/-!
Verification of the IPA-based Pig Latin converter (`pig_latin.py`).

Strings are modelled as `List Char`; a token (a "segment", stress mark or
syllable-break mark) is likewise a `List Char`.  Every definition below is a
direct transcription of the corresponding Python function, keeping its name.
-/

/-- A token produced by the tokenizer: one segment, stress mark or break mark. -/
abbrev Token := List Char

/-- The vowel inventory `IPA_VOWELS` of `pig_latin.py` (the 30 symbols listed
in the source, in source order):
i y ɨ ʉ ɯ u ɪ ʏ ʊ e ø ɘ ɵ ɤ o ə ɚ ɜ ɝ ɞ ɛ œ ɐ ʌ ɔ æ a ɑ ɒ ɶ. -/
def IPA_VOWELS : List Char :=
  ['i', 'y', 'ɨ', 'ʉ', 'ɯ', 'u', 'ɪ', 'ʏ', 'ʊ',
   'e', 'ø', 'ɘ', 'ɵ', 'ɤ', 'o',
   'ə', 'ɚ', 'ɜ', 'ɝ', 'ɞ', 'ɛ', 'œ',
   'ɐ', 'ʌ', 'ɔ', 'æ', 'a', 'ɑ', 'ɒ', 'ɶ']

/-- `STRESS_MARKS = {"ˈ", "ˌ"}` (U+02C8, U+02CC). -/
def STRESS_MARKS : List Char := ['ˈ', 'ˌ']

/-- `SYLLABLE_BREAKS = {".", "·"}` (full stop, U+00B7 middle dot). -/
def SYLLABLE_BREAKS : List Char := ['.', '·']

/-- `LENGTH_MARKS = {"ː", "ˑ"}` (U+02D0, U+02D1). -/
def LENGTH_MARKS : List Char := ['ː', 'ˑ']

/-- `TIE_BARS = {"͡", "͜"}` (U+0361, U+035C). -/
def TIE_BARS : List Char := ['͡', '͜']

/-- `SYLLABIC_DIACRITIC = "̩"` (U+0329). -/
def SYLLABIC_DIACRITIC : Char := '̩'

/-- Python `str.isspace` on a single character: the Unicode whitespace
characters (space, the control whitespace U+0009..U+000D and U+001C..U+001F,
NEL, NBSP, and the Unicode space separators). -/
def pyIsSpace (c : Char) : Bool :=
  c.toNat = 0x20 || (0x09 ≤ c.toNat && c.toNat ≤ 0x0D) ||
  (0x1C ≤ c.toNat && c.toNat ≤ 0x1F) || c.toNat = 0x85 || c.toNat = 0xA0 ||
  c.toNat = 0x1680 || (0x2000 ≤ c.toNat && c.toNat ≤ 0x200A) ||
  c.toNat = 0x2028 || c.toNat = 0x2029 || c.toNat = 0x202F ||
  c.toNat = 0x205F || c.toNat = 0x3000

/-- Python `str.strip()`: remove leading and trailing whitespace. -/
def pyStrip (s : List Char) : List Char :=
  ((s.dropWhile pyIsSpace).reverse.dropWhile pyIsSpace).reverse

/-- The delimiter test of `strip_brackets`: the string starts with `/` and
ends with `/`, or starts with `[` and ends with `]`. -/
def bracket_delimited (t : List Char) : Bool :=
  (t.head? == some '/' && t.getLast? == some '/') ||
  (t.head? == some '[' && t.getLast? == some ']')

/-- `strip_brackets`: trim whitespace; if the result is wrapped in `/.../`
or `[...]`, drop the first and last character and trim again. -/
def strip_brackets (ipa : List Char) : List Char :=
  if bracket_delimited (pyStrip ipa) then pyStrip (((pyStrip ipa).drop 1).dropLast)
  else pyStrip ipa

/-- `is_combining`: Python `unicodedata.category(ch) == "Mn"`, embedded over
the Combining Diacritical Marks block U+0300–U+036F (every code point of which
has category Mn); this block contains all combining marks in the program's IPA
inventory, in particular both tie bars (U+0361, U+035C) and the syllabic
diacritic (U+0329). -/
def is_combining (c : Char) : Bool :=
  0x300 ≤ c.toNat && c.toNat ≤ 0x36F

/-- The main loop of `tokenize_ipa`, with the accumulated token list kept in
reverse order (the head of `tokens` is Python's `tokens[-1]`).  Each branch
mirrors one branch of the Python `while` loop; the inner `while` loops that
attach combining marks and length marks to a fresh segment are rendered as
`takeWhile`/`dropWhile`.  The first argument is an iteration budget: every
iteration of the Python loop advances the scan position by at least one
character, so a budget of `l.length` is always sufficient, and the result
does not depend on the budget once it is sufficient (`tokenizeFuel_irrel`). -/
def tokenizeFuel : Nat → List Char → List Token → List Token
  | _, [], tokens => tokens
  | 0, _ :: _, tokens => tokens
  | fuel + 1, c :: rest, tokens =>
    if pyIsSpace c then tokenizeFuel fuel rest tokens
    else if STRESS_MARKS.contains c || SYLLABLE_BREAKS.contains c then
      tokenizeFuel fuel rest ([c] :: tokens)
    else if LENGTH_MARKS.contains c then
      match tokens with
      | t :: ts => tokenizeFuel fuel rest ((t ++ [c]) :: ts)
      | [] => tokenizeFuel fuel rest [[c]]
    else if is_combining c then
      match tokens with
      | t :: ts => tokenizeFuel fuel rest ((t ++ [c]) :: ts)
      | [] => tokenizeFuel fuel rest [[c]]
    else
      let seg2 := (c :: rest.takeWhile is_combining) ++
        ((rest.dropWhile is_combining).takeWhile LENGTH_MARKS.contains)
      match (rest.dropWhile is_combining).dropWhile LENGTH_MARKS.contains with
      | tie :: r3 =>
        if TIE_BARS.contains tie then
          match r3 with
          | d :: r4 =>
            let seg4 := (seg2 ++ [tie, d] ++ r4.takeWhile is_combining) ++
              ((r4.dropWhile is_combining).takeWhile LENGTH_MARKS.contains)
            tokenizeFuel fuel ((r4.dropWhile is_combining).dropWhile LENGTH_MARKS.contains)
              (seg4 :: tokens)
          | [] => tokenizeFuel fuel [] (seg2 :: tokens)
        else tokenizeFuel fuel (tie :: r3) (seg2 :: tokens)
      | [] => tokenizeFuel fuel [] (seg2 :: tokens)

/-- `tokenize_ipa`: strip brackets, then run the scanning loop. -/
def tokenize_ipa (ipa : List Char) : List Token :=
  (tokenizeFuel (strip_brackets ipa).length (strip_brackets ipa) []).reverse

/-- `base_symbol`: the first character of a segment that is not a combining
mark, length mark or tie bar (returned as a one-character string); fallback:
the segment's first character, `seg[:1]`. -/
def base_symbol (seg : Token) : List Char :=
  match seg.find? (fun ch =>
      !is_combining ch && !LENGTH_MARKS.contains ch && !TIE_BARS.contains ch) with
  | some ch => [ch]
  | none => seg.take 1

/-- `is_nucleus_segment`: the segment contains the syllabic diacritic, or its
base symbol is in the vowel inventory (Python tests membership of the
one-character base-symbol string in the set of vowel strings). -/
def is_nucleus_segment (seg : Token) : Bool :=
  seg.contains SYLLABIC_DIACRITIC ||
    (IPA_VOWELS.map (fun c => [c])).contains (base_symbol seg)

/-- The loop of `merge_consecutive_vowels`, carrying the in-progress merged
nucleus (`some nuc` while inside a run of nucleus-capable segments). -/
def mergeAux : List Token → Option Token → List Token
  | [], none => []
  | [], some nuc => [nuc]
  | t :: rest, none =>
    if is_nucleus_segment t then mergeAux rest (some t)
    else t :: mergeAux rest none
  | t :: rest, some nuc =>
    if is_nucleus_segment t then mergeAux rest (some (nuc ++ t))
    else nuc :: t :: mergeAux rest none

/-- `merge_consecutive_vowels`: fuse each maximal run of consecutive
nucleus-capable segments into a single concatenated token. -/
def merge_consecutive_vowels (tokens : List Token) : List Token :=
  mergeAux tokens none

/-- Membership of a token in a set of one-character marker strings (Python's
`t in STRESS_MARKS`, `t in SYLLABLE_BREAKS` where the set elements are
one-character strings). -/
def tok_in (t : Token) (s : List Char) : Bool :=
  match t with
  | [c] => s.contains c
  | _ => false

/-- The loop of `split_into_syllables`, with the group list kept in reverse
order (the head of `acc` is Python's `syllables[-1]`, the group being built). -/
def splitAux : List Token → List (List Token) → List (List Token)
  | [], acc => acc
  | t :: rest, acc =>
    if tok_in t SYLLABLE_BREAKS then
      match acc with
      | cur :: _ => if cur.isEmpty then splitAux rest acc else splitAux rest ([] :: acc)
      | [] => splitAux rest acc
    else
      match acc with
      | cur :: others => splitAux rest ((cur ++ [t]) :: others)
      | [] => splitAux rest [[t]]

/-- `split_into_syllables`: split the token list at syllable-break tokens,
discarding the break tokens and every empty group. -/
def split_into_syllables (tokens : List Token) : List (List Token) :=
  ((splitAux tokens [[]]).reverse).filter (fun s => !s.isEmpty)

/-- The record `SyllableONC` of `pig_latin.py`. -/
structure SyllableONC where
  onset : List Char
  nucleus : List Char
  coda : List Char
  stress : Option Token
deriving DecidableEq, Repr

/-- The leading-stress loop of `onset_nucleus_coda_for_syllable`: pop stress
marks off the front, overwriting the recorded `stress` at each step (so the
last leading stress mark survives), and return the remaining tokens. -/
def stripStress : List Token → Option Token → Option Token × List Token
  | t :: rest, st =>
    if tok_in t STRESS_MARKS then stripStress rest (some t) else (st, t :: rest)
  | [], st => (st, [])

/-- `onset_nucleus_coda_for_syllable`: strip leading stress marks; find the
first nucleus-capable token; onset and coda are the concatenations of the
non-stress tokens before and after it.  If no nucleus-capable token exists,
the whole remaining group (stress marks included) is joined into the onset. -/
def onset_nucleus_coda_for_syllable (syl_tokens : List Token) : SyllableONC :=
  let stress := (stripStress syl_tokens none).1
  let toks := (stripStress syl_tokens none).2
  match toks.dropWhile (fun t => !is_nucleus_segment t) with
  | [] => ⟨toks.flatten, [], [], stress⟩
  | nuc :: post =>
    ⟨((toks.takeWhile (fun t => !is_nucleus_segment t)).filter
        (fun t => !tok_in t STRESS_MARKS)).flatten,
     nuc,
     (post.filter (fun t => !tok_in t STRESS_MARKS)).flatten,
     stress⟩

/-- `segment_word_onc`: tokenize, split into syllables, merge vowels inside
each syllable, extract onset/nucleus/coda per syllable. -/
def segment_word_onc (ipa_word : List Char) : List SyllableONC :=
  (split_into_syllables (tokenize_ipa ipa_word)).map
    (fun syl => onset_nucleus_coda_for_syllable (merge_consecutive_vowels syl))

/-- `join_syllables_to_ipa`: rejoin `onset ++ nucleus ++ coda` per syllable
with `.` between syllables. -/
def join_syllables_to_ipa (syllables : List SyllableONC) : List Char :=
  List.intercalate ['.'] (syllables.map (fun s => s.onset ++ s.nucleus ++ s.coda))

/-- `pig_latin_from_ipa`: segment the word; empty segmentation gives the empty
string; a first syllable with no nucleus, or with an empty onset, gives the
reconstruction plus the suffix `ei`; otherwise the first onset cluster moves
to the end, before the suffix. -/
def pig_latin_from_ipa (ipa_word : List Char) : List Char :=
  match segment_word_onc ipa_word with
  | [] => []
  | first :: others =>
    let original := join_syllables_to_ipa (first :: others)
    if first.nucleus.isEmpty && !original.isEmpty then original ++ ['e', 'i']
    else if first.onset.isEmpty then original ++ ['e', 'i']
    else
      List.intercalate ['.']
        ((first.nucleus ++ first.coda) ::
          others.map (fun s => s.onset ++ s.nucleus ++ s.coda)) ++
        first.onset ++ ['e', 'i']

/-! ## Auxiliary lemmas -/

/-- A budget of at least `l.length` makes the budget irrelevant: any two
sufficient budgets give the same token list. -/
theorem tokenizeFuel_irrel (n m : Nat) (l : List Char) (acc : List Token)
    (hn : l.length ≤ n) (hm : l.length ≤ m) :
    tokenizeFuel n l acc = tokenizeFuel m l acc := by
  induction n generalizing m l acc with
  | zero =>
    cases l with
    | nil => cases m <;> simp only [tokenizeFuel]
    | cons c rest => exact absurd hn (Nat.not_succ_le_zero rest.length)
  | succ k ih =>
    cases l with
    | nil => cases m <;> simp only [tokenizeFuel]
    | cons c rest =>
      cases m with
      | zero => exact absurd hm (Nat.not_succ_le_zero rest.length)
      | succ j =>
        have hrk : rest.length ≤ k := by
          simp only [List.length_cons] at hn; omega
        have hrj : rest.length ≤ j := by
          simp only [List.length_cons] at hm; omega
        have hd2 : ∀ (x : List Char),
            ((x.dropWhile is_combining).dropWhile LENGTH_MARKS.contains).length ≤
              x.length := fun x =>
          Nat.le_trans ((List.dropWhile_suffix _).sublist.length_le)
            ((List.dropWhile_suffix _).sublist.length_le)
        cases acc with
        | nil =>
          simp only [tokenizeFuel]
          split
          · exact ih j rest _ hrk hrj
          · split
            · exact ih j rest _ hrk hrj
            · split
              · exact ih j rest _ hrk hrj
              · split
                · exact ih j rest _ hrk hrj
                · split
                  · next tie r3 hdrop =>
                    have h1 : (tie :: r3).length ≤ rest.length := by
                      rw [← hdrop]; exact hd2 rest
                    split
                    · match r3, hdrop, h1 with
                      | d :: r4, hdrop, h1 =>
                        have h4 := hd2 r4
                        simp only [List.length_cons] at h1
                        exact ih j _ _ (by omega) (by omega)
                      | [], hdrop, h1 => rfl
                    · exact ih j _ _ (Nat.le_trans h1 hrk) (Nat.le_trans h1 hrj)
                  · rfl
        | cons t ts =>
          simp only [tokenizeFuel]
          split
          · exact ih j rest _ hrk hrj
          · split
            · exact ih j rest _ hrk hrj
            · split
              · exact ih j rest _ hrk hrj
              · split
                · exact ih j rest _ hrk hrj
                · split
                  · next tie r3 hdrop =>
                    have h1 : (tie :: r3).length ≤ rest.length := by
                      rw [← hdrop]; exact hd2 rest
                    split
                    · match r3, hdrop, h1 with
                      | d :: r4, hdrop, h1 =>
                        have h4 := hd2 r4
                        simp only [List.length_cons] at h1
                        exact ih j _ _ (by omega) (by omega)
                      | [], hdrop, h1 => rfl
                    · exact ih j _ _ (Nat.le_trans h1 hrk) (Nat.le_trans h1 hrj)
                  · rfl

/-- Both tie-bar characters are themselves combining marks (category Mn);
this is why the tie-bar branch of the tokenizer is unreachable right after a
base character. -/
theorem tie_is_combining : ∀ c ∈ TIE_BARS, is_combining c = true := by
  decide

/-- A suffix of a chain is a chain. -/
theorem chain'_of_suffix {α : Type} {R : α → α → Prop} {l1 l2 : List α}
    (h : l1 <:+ l2) (hc : List.Chain' R l2) : List.Chain' R l1 := by
  obtain ⟨t, rfl⟩ := h
  exact (List.chain'_append.mp hc).2.1

/-- Stress-mark tokens are never nucleus segments. -/
theorem stress_not_nucleus (t : Token) (h : tok_in t STRESS_MARKS = true) :
    is_nucleus_segment t = false := by
  match t with
  | [] => simp [tok_in] at h
  | [c] =>
    simp only [tok_in, List.contains, STRESS_MARKS] at h
    have hc : c = 'ˈ' ∨ c = 'ˌ' := by
      have := List.elem_iff.mp h
      simpa using this
    rcases hc with rfl | rfl <;> decide
  | c :: d :: rest => simp [tok_in] at h

/-- Core of the tokenizer-reversibility property: on whitespace-free input in
which no tie bar immediately follows a length mark, the scanning loop appends
exactly the input characters (in order, losing none) to the accumulated
tokens. -/
theorem tokenizeFuel_flatten (n : Nat) (l : List Char) (acc : List Token)
    (hn : l.length ≤ n)
    (hsp : ∀ c ∈ l, pyIsSpace c = false)
    (hch : List.Chain' (fun a b => ¬(a ∈ LENGTH_MARKS ∧ b ∈ TIE_BARS)) l) :
    ((tokenizeFuel n l acc).reverse).flatten = ((acc.reverse).flatten) ++ l := by
  induction n generalizing l acc with
  | zero =>
    cases l with
    | nil => simp only [tokenizeFuel, List.append_nil]
    | cons c rest => exact absurd hn (Nat.not_succ_le_zero rest.length)
  | succ k ih =>
    cases l with
    | nil => simp only [tokenizeFuel, List.append_nil]
    | cons c rest =>
      have hrk : rest.length ≤ k := by
        simp only [List.length_cons] at hn; omega
      have hsp_rest : ∀ x ∈ rest, pyIsSpace x = false := fun x hx =>
        hsp x (List.mem_cons_of_mem c hx)
      have hch_rest : List.Chain' (fun a b => ¬(a ∈ LENGTH_MARKS ∧ b ∈ TIE_BARS)) rest :=
        hch.tail
      have hsplit1 : rest.takeWhile is_combining ++ rest.dropWhile is_combining = rest :=
        List.takeWhile_append_dropWhile is_combining rest
      have hsplit2 : (rest.dropWhile is_combining).takeWhile LENGTH_MARKS.contains ++
          (rest.dropWhile is_combining).dropWhile LENGTH_MARKS.contains =
          rest.dropWhile is_combining :=
        List.takeWhile_append_dropWhile LENGTH_MARKS.contains (rest.dropWhile is_combining)
      cases acc with
      | nil =>
        simp only [tokenizeFuel]
        split
        · next hspace =>
          rw [hsp c (List.mem_cons_self c rest)] at hspace
          exact Bool.noConfusion hspace
        · split
          · rw [ih rest _ hrk hsp_rest hch_rest]
            simp
          · split
            · rw [ih rest _ hrk hsp_rest hch_rest]
              simp
            · split
              · rw [ih rest _ hrk hsp_rest hch_rest]
                simp
              · split
                · next tie r3 hdrop =>
                  have hrest : rest.takeWhile is_combining ++
                      ((rest.dropWhile is_combining).takeWhile LENGTH_MARKS.contains ++
                        (tie :: r3)) = rest := by
                    rw [← hdrop, hsplit2]
                    exact hsplit1
                  split
                  · next htie =>
                    exfalso
                    by_cases hBnil :
                        (rest.dropWhile is_combining).takeWhile LENGTH_MARKS.contains = []
                    · have hr1 : rest.dropWhile is_combining = tie :: r3 := by
                        rw [← hsplit2, hBnil, hdrop]
                        rfl
                      have hne : rest.dropWhile is_combining ≠ [] := by
                        rw [hr1]; exact List.cons_ne_nil tie r3
                      have hnc := List.head_dropWhile_not is_combining rest hne
                      simp only [hr1, List.head_cons] at hnc
                      rw [tie_is_combining tie (by simpa [List.contains] using htie)] at hnc
                      exact Bool.noConfusion hnc
                    · have hlast_mem := List.getLast_mem hBnil
                      have hlastLen : ((rest.dropWhile is_combining).takeWhile
                          LENGTH_MARKS.contains).getLast hBnil ∈ LENGTH_MARKS := by
                        have h2 := List.mem_takeWhile_imp hlast_mem
                        simpa [List.contains] using h2
                      have htieMem : tie ∈ TIE_BARS := by
                        simpa [List.contains] using htie
                      have hBsplit : ((rest.dropWhile is_combining).takeWhile
                            LENGTH_MARKS.contains).dropLast ++
                          [((rest.dropWhile is_combining).takeWhile
                            LENGTH_MARKS.contains).getLast hBnil] =
                          (rest.dropWhile is_combining).takeWhile LENGTH_MARKS.contains :=
                        List.dropLast_concat_getLast hBnil
                      have htail : (rest.takeWhile is_combining ++
                          ((rest.dropWhile is_combining).takeWhile
                            LENGTH_MARKS.contains).dropLast) ++
                          (((rest.dropWhile is_combining).takeWhile
                            LENGTH_MARKS.contains).getLast hBnil :: tie :: r3) = rest := by
                        rw [List.append_assoc, ← List.singleton_append,
                          ← List.append_assoc (((rest.dropWhile is_combining).takeWhile
                            LENGTH_MARKS.contains).dropLast), hBsplit]
                        exact hrest
                      have hl : (c :: (rest.takeWhile is_combining ++
                          ((rest.dropWhile is_combining).takeWhile
                            LENGTH_MARKS.contains).dropLast)) ++
                          (((rest.dropWhile is_combining).takeWhile
                            LENGTH_MARKS.contains).getLast hBnil :: tie :: r3) =
                          c :: rest := by
                        rw [List.cons_append, htail]
                      rw [← hl] at hch
                      exact (List.chain'_append_cons_cons.mp hch).2.1 ⟨hlastLen, htieMem⟩
                  · next htie =>
                    have hsuf : (tie :: r3) <:+ rest :=
                      ⟨rest.takeWhile is_combining ++
                        (rest.dropWhile is_combining).takeWhile LENGTH_MARKS.contains,
                       by rw [List.append_assoc]; exact hrest⟩
                    have hlen : (tie :: r3).length ≤ k :=
                      Nat.le_trans (hsuf.sublist.length_le) hrk
                    rw [ih (tie :: r3) _ hlen
                      (fun x hx => hsp_rest x (hsuf.subset hx))
                      (chain'_of_suffix hsuf hch_rest)]
                    simp only [List.reverse_cons, List.flatten_append, List.flatten_cons,
                      List.flatten_nil, List.append_nil, List.cons_append, List.append_assoc,
                      List.nil_append]
                    rw [hrest]
                · next hdrop =>
                  have hB : (rest.dropWhile is_combining).takeWhile LENGTH_MARKS.contains =
                      rest.dropWhile is_combining := by
                    have hBD := hsplit2
                    rw [hdrop, List.append_nil] at hBD
                    exact hBD
                  simp only [tokenizeFuel, List.reverse_cons, List.flatten_append,
                    List.flatten_cons, List.flatten_nil, List.append_nil, List.cons_append,
                    List.append_assoc, List.nil_append]
                  rw [hB, hsplit1]
      | cons t ts =>
        simp only [tokenizeFuel]
        split
        · next hspace =>
          rw [hsp c (List.mem_cons_self c rest)] at hspace
          exact Bool.noConfusion hspace
        · split
          · rw [ih rest _ hrk hsp_rest hch_rest]
            simp
          · split
            · rw [ih rest _ hrk hsp_rest hch_rest]
              simp
            · split
              · rw [ih rest _ hrk hsp_rest hch_rest]
                simp
              · split
                · next tie r3 hdrop =>
                  have hrest : rest.takeWhile is_combining ++
                      ((rest.dropWhile is_combining).takeWhile LENGTH_MARKS.contains ++
                        (tie :: r3)) = rest := by
                    rw [← hdrop, hsplit2]
                    exact hsplit1
                  split
                  · next htie =>
                    exfalso
                    by_cases hBnil :
                        (rest.dropWhile is_combining).takeWhile LENGTH_MARKS.contains = []
                    · have hr1 : rest.dropWhile is_combining = tie :: r3 := by
                        rw [← hsplit2, hBnil, hdrop]
                        rfl
                      have hne : rest.dropWhile is_combining ≠ [] := by
                        rw [hr1]; exact List.cons_ne_nil tie r3
                      have hnc := List.head_dropWhile_not is_combining rest hne
                      simp only [hr1, List.head_cons] at hnc
                      rw [tie_is_combining tie (by simpa [List.contains] using htie)] at hnc
                      exact Bool.noConfusion hnc
                    · have hlast_mem := List.getLast_mem hBnil
                      have hlastLen : ((rest.dropWhile is_combining).takeWhile
                          LENGTH_MARKS.contains).getLast hBnil ∈ LENGTH_MARKS := by
                        have h2 := List.mem_takeWhile_imp hlast_mem
                        simpa [List.contains] using h2
                      have htieMem : tie ∈ TIE_BARS := by
                        simpa [List.contains] using htie
                      have hBsplit : ((rest.dropWhile is_combining).takeWhile
                            LENGTH_MARKS.contains).dropLast ++
                          [((rest.dropWhile is_combining).takeWhile
                            LENGTH_MARKS.contains).getLast hBnil] =
                          (rest.dropWhile is_combining).takeWhile LENGTH_MARKS.contains :=
                        List.dropLast_concat_getLast hBnil
                      have htail : (rest.takeWhile is_combining ++
                          ((rest.dropWhile is_combining).takeWhile
                            LENGTH_MARKS.contains).dropLast) ++
                          (((rest.dropWhile is_combining).takeWhile
                            LENGTH_MARKS.contains).getLast hBnil :: tie :: r3) = rest := by
                        rw [List.append_assoc, ← List.singleton_append,
                          ← List.append_assoc (((rest.dropWhile is_combining).takeWhile
                            LENGTH_MARKS.contains).dropLast), hBsplit]
                        exact hrest
                      have hl : (c :: (rest.takeWhile is_combining ++
                          ((rest.dropWhile is_combining).takeWhile
                            LENGTH_MARKS.contains).dropLast)) ++
                          (((rest.dropWhile is_combining).takeWhile
                            LENGTH_MARKS.contains).getLast hBnil :: tie :: r3) =
                          c :: rest := by
                        rw [List.cons_append, htail]
                      rw [← hl] at hch
                      exact (List.chain'_append_cons_cons.mp hch).2.1 ⟨hlastLen, htieMem⟩
                  · next htie =>
                    have hsuf : (tie :: r3) <:+ rest :=
                      ⟨rest.takeWhile is_combining ++
                        (rest.dropWhile is_combining).takeWhile LENGTH_MARKS.contains,
                       by rw [List.append_assoc]; exact hrest⟩
                    have hlen : (tie :: r3).length ≤ k :=
                      Nat.le_trans (hsuf.sublist.length_le) hrk
                    rw [ih (tie :: r3) _ hlen
                      (fun x hx => hsp_rest x (hsuf.subset hx))
                      (chain'_of_suffix hsuf hch_rest)]
                    simp only [List.reverse_cons, List.flatten_append, List.flatten_cons,
                      List.flatten_nil, List.append_nil, List.cons_append, List.append_assoc,
                      List.nil_append]
                    rw [hrest]
                · next hdrop =>
                  have hB : (rest.dropWhile is_combining).takeWhile LENGTH_MARKS.contains =
                      rest.dropWhile is_combining := by
                    have hBD := hsplit2
                    rw [hdrop, List.append_nil] at hBD
                    exact hBD
                  simp only [tokenizeFuel, List.reverse_cons, List.flatten_append,
                    List.flatten_cons, List.flatten_nil, List.append_nil, List.cons_append,
                    List.append_assoc, List.nil_append]
                  rw [hB, hsplit1]

theorem stripStress_cons_stress (t : Token) (rest : List Token) (st : Option Token)
    (h : tok_in t STRESS_MARKS = true) :
    stripStress (t :: rest) st = stripStress rest (some t) := by
  simp [stripStress, h]

theorem stripStress_no_leading (post : List Token) (st : Option Token)
    (hpost : ∀ t, post.head? = some t → tok_in t STRESS_MARKS = false) :
    stripStress post st = (st, post) := by
  cases post with
  | nil => rfl
  | cons t rest =>
    have h := hpost t rfl
    simp [stripStress, h]

theorem stripStress_append : ∀ (pre post : List Token) (st : Option Token)
    (hne : pre ≠ []), (∀ t ∈ pre, tok_in t STRESS_MARKS = true) →
    (∀ t, post.head? = some t → tok_in t STRESS_MARKS = false) →
    stripStress (pre ++ post) st = (some (pre.getLast hne), post)
  | [a], post, st, _, hpre, hpost => by
    have ha := hpre a (List.mem_cons_self a [])
    rw [List.singleton_append, stripStress_cons_stress a post st ha,
      stripStress_no_leading post (some a) hpost]
    rfl
  | a :: b :: pre2, post, st, _, hpre, hpost => by
    have ha := hpre a (List.mem_cons_self a (b :: pre2))
    have ih := stripStress_append (b :: pre2) post (some a) (List.cons_ne_nil b pre2)
      (fun t ht => hpre t (List.mem_cons_of_mem a ht)) hpost
    rw [List.cons_append, stripStress_cons_stress a _ st ha, ih]
    rfl

theorem pyStrip_head (s : List Char) :
    ∀ x, (pyStrip s).head? = some x → pyIsSpace x = false := by
  intro x hx
  unfold pyStrip at hx
  rw [List.head?_reverse] at hx
  obtain ⟨tt, htt⟩ :=
    (List.dropWhile_suffix (l := (s.dropWhile pyIsSpace).reverse) pyIsSpace)
  have h2 : (s.dropWhile pyIsSpace).reverse.getLast? = some x := by
    rw [← htt, List.getLast?_append, hx]
    rfl
  rw [List.getLast?_reverse] at h2
  have h0 := List.head?_dropWhile_not pyIsSpace s
  rw [h2] at h0
  exact h0

theorem dropWhile_head_false {α : Type} (p : α → Bool) (l : List α)
    (h : ∀ x, l.head? = some x → p x = false) : l.dropWhile p = l := by
  cases l with
  | nil => rfl
  | cons a rest => simp [List.dropWhile_cons, h a rfl]

theorem pyStrip_idem (s : List Char) : pyStrip (pyStrip s) = pyStrip s := by
  have hA : (pyStrip s).dropWhile pyIsSpace = pyStrip s :=
    dropWhile_head_false _ _ (pyStrip_head s)
  show ((((pyStrip s).dropWhile pyIsSpace).reverse).dropWhile pyIsSpace).reverse = pyStrip s
  rw [hA]
  have hB : (pyStrip s).reverse = ((s.dropWhile pyIsSpace).reverse).dropWhile pyIsSpace := by
    unfold pyStrip; rw [List.reverse_reverse]
  rw [hB, List.dropWhile_idempotent, ← hB, List.reverse_reverse]

theorem pyStrip_strip_brackets (s : List Char) :
    pyStrip (strip_brackets s) = strip_brackets s := by
  unfold strip_brackets
  split
  · exact pyStrip_idem _
  · exact pyStrip_idem _

/-- The output of the nucleus-merging loop never has a nucleus-capable token
immediately followed by another nucleus-capable token. -/
theorem mergeAux_chain (l : List Token) :
    ∀ st : Option Token, List.Chain'
      (fun a b => is_nucleus_segment a = true → is_nucleus_segment b = false)
      (mergeAux l st) := by
  induction l with
  | nil =>
    intro st
    cases st with
    | none => exact List.chain'_nil
    | some nuc => exact List.chain'_singleton nuc
  | cons t rest ih =>
    intro st
    cases st with
    | none =>
      simp only [mergeAux]
      split
      · exact ih (some t)
      · next hnt =>
        rw [List.chain'_cons']
        exact ⟨fun y _ hT => absurd hT hnt, ih none⟩
    | some nuc =>
      simp only [mergeAux]
      split
      · exact ih (some (nuc ++ t))
      · next hnt =>
        rw [List.chain'_cons']
        constructor
        · intro y hy
          simp only [List.head?_cons, Option.mem_def, Option.some.injEq] at hy
          subst hy
          exact fun _ => Bool.eq_false_iff.mpr hnt
        · rw [List.chain'_cons']
          exact ⟨fun y _ hT => absurd hT hnt, ih none⟩

/-- On a token list in which no nucleus-capable token is followed by another,
the merging loop is the identity. -/
theorem mergeAux_of_chain (l : List Token)
    (hc : List.Chain'
      (fun a b => is_nucleus_segment a = true → is_nucleus_segment b = false) l) :
    mergeAux l none = l := by
  induction l with
  | nil => rfl
  | cons t rest ih =>
    by_cases hnt : is_nucleus_segment t = true
    · cases rest with
      | nil => simp [mergeAux, hnt]
      | cons r rs =>
        have hr : is_nucleus_segment r = false :=
          (List.chain'_cons.mp hc).1 hnt
        have hrest := ih (List.chain'_cons.mp hc).2
        simp only [mergeAux, hr] at hrest
        simp only [Bool.false_eq_true, if_false] at hrest
        have hrs : mergeAux rs none = rs :=
          ((List.cons.injEq r _ r rs).mp hrest).2
        simp [mergeAux, hnt, hr, hrs]
    · have hnt' : is_nucleus_segment t = false := Bool.eq_false_iff.mpr hnt
      have hrest := ih hc.tail
      simp [mergeAux, hnt', hrest]

/-- Claim C1: `pig_latin_from_ipa` on the input `/straɪk/` returns `aɪkstrei`:
brackets stripped, tokens s,t,r,aɪ,k after nucleus merging, one syllable with
onset `str`, nucleus `aɪ`, coda `k`, onset moved to the end before `ei`. -/
theorem strike_pig_latin :
    pig_latin_from_ipa ['/', 's', 't', 'r', 'a', 'ɪ', 'k', '/'] =
      ['a', 'ɪ', 'k', 's', 't', 'r', 'e', 'i'] := by
  decide

/-- Claim C2 (failing input): on the input `t͡ʃ` (t, U+0361, ʃ) the tokenizer
does NOT produce the single affricate segment `t͡ʃ`; the tie bar, being a
combining mark, is absorbed into the first segment by the combining-mark loop
before the tie-bar branch can see it, so the result is the two segments
`t͡` and `ʃ`, contradicting the function's own docstring. -/
theorem tie_bar_affricate_split :
    tokenize_ipa ['t', '͡', 'ʃ'] = [['t', '͡'], ['ʃ']] := by
  decide

/-- Claim C5 (amended): when a token group starts with leading stress marks,
`onset_nucleus_coda_for_syllable` strips them all and records the LAST of the
leading stress marks (each loop iteration overwrites `stress`), returning
otherwise the same record as for the group without them. -/
theorem stress_last_recorded (pre post : List Token) (hne : pre ≠ [])
    (hpre : ∀ t ∈ pre, tok_in t STRESS_MARKS = true)
    (hpost : ∀ t, post.head? = some t → tok_in t STRESS_MARKS = false) :
    onset_nucleus_coda_for_syllable (pre ++ post) =
      { onset_nucleus_coda_for_syllable post with stress := some (pre.getLast hne) } := by
  have h1 := stripStress_append pre post none hne hpre hpost
  have h2 := stripStress_no_leading post none hpost
  simp only [onset_nucleus_coda_for_syllable, h1, h2]
  split <;> rfl

/-- Claim C5 (witness): a concrete group with two leading stress marks. -/
theorem stress_last_recorded_witness :
    onset_nucleus_coda_for_syllable [['ˈ'], ['ˌ'], ['a']] =
      { onset_nucleus_coda_for_syllable [['a']] with stress := some ['ˌ'] } :=
  stress_last_recorded [['ˈ'], ['ˌ']] [['a']] (by decide) (by decide) (by decide)

/-- Claim C5 (counterexample): with leading stress marks `ˈ ˌ`, the recorded
stress is the last one (`ˌ`), not the first one (`ˈ`) as the claim states. -/
theorem stress_first_cex :
    (onset_nucleus_coda_for_syllable [['ˈ'], ['ˌ'], ['a']]).stress = some ['ˌ'] ∧
    (onset_nucleus_coda_for_syllable [['ˈ'], ['ˌ'], ['a']]).stress ≠ some ['ˈ'] := by
  decide

/-- Claim C6 (counterexample): `strip_brackets` is not idempotent: on `///`
one application gives `/`, a second application gives the empty string. -/
theorem strip_brackets_not_idempotent :
    strip_brackets (strip_brackets ['/', '/', '/']) ≠ strip_brackets ['/', '/', '/'] := by
  decide

/-- Claim C6 (amended): `strip_brackets` is stable on every input whose
stripped form is not again delimiter-wrapped; equivalently, a second
application changes nothing unless the first one exposed a new matching
`/.../` or `[...]` pair. -/
theorem strip_brackets_stable (s : List Char)
    (h : bracket_delimited (strip_brackets s) = false) :
    strip_brackets (strip_brackets s) = strip_brackets s := by
  have hdef : strip_brackets (strip_brackets s) =
      if bracket_delimited (pyStrip (strip_brackets s)) then
        pyStrip (((pyStrip (strip_brackets s)).drop 1).dropLast)
      else pyStrip (strip_brackets s) := rfl
  rw [hdef, pyStrip_strip_brackets, h]
  simp

/-- Claim C6 (witness): `/a/` strips to `a`, which is not delimited, so a
second application is the identity. -/
theorem strip_brackets_stable_witness :
    strip_brackets (strip_brackets ['/', 'a', '/']) = strip_brackets ['/', 'a', '/'] :=
  strip_brackets_stable ['/', 'a', '/'] (by decide)

/-- Claim C8: `merge_consecutive_vowels` is idempotent: its output never has
two adjacent nucleus-capable tokens, and on such lists it is the identity. -/
theorem merge_idempotent (ts : List Token) :
    merge_consecutive_vowels (merge_consecutive_vowels ts) = merge_consecutive_vowels ts :=
  mergeAux_of_chain _ (mergeAux_chain ts none)

/-- Claim C10 (amended): the vowel inventory `IPA_VOWELS` contains exactly 30
distinct IPA vowel symbols (not 32). -/
theorem vowel_inventory_card : IPA_VOWELS.toFinset.card = 30 := by decide

/-- Claim C10 (counterexample): the vowel inventory does not have 32
elements. -/
theorem vowel_inventory_not_32 : ¬ IPA_VOWELS.toFinset.card = 32 := by decide

/-- Leading-stress stripping does not change the non-stress tokens. -/
theorem filter_stripStress (g : List Token) (st : Option Token) :
    (stripStress g st).2.filter (fun t => !tok_in t STRESS_MARKS) =
      g.filter (fun t => !tok_in t STRESS_MARKS) := by
  induction g generalizing st with
  | nil => rfl
  | cons t rest ih =>
    by_cases h : tok_in t STRESS_MARKS = true
    · rw [stripStress_cons_stress t rest st h, ih]
      simp [List.filter_cons, h]
    · have h' : tok_in t STRESS_MARKS = false := Bool.eq_false_iff.mpr h
      simp [stripStress, h']

/-- Splitting a list around a non-stress token distributes the stress filter
and the concatenation. -/
theorem flatten_filter_decomp (pre : List Token) (nuc : Token) (post : List Token)
    (hnuc : (!tok_in nuc STRESS_MARKS) = true) :
    ((pre ++ nuc :: post).filter (fun t => !tok_in t STRESS_MARKS)).flatten =
      (pre.filter (fun t => !tok_in t STRESS_MARKS)).flatten ++ nuc ++
        (post.filter (fun t => !tok_in t STRESS_MARKS)).flatten := by
  simp [List.filter_append, List.filter_cons, hnuc, List.flatten_append, List.append_assoc]

/-- Claim C3 (amended): whenever the extracted syllable has a non-empty
nucleus, that nucleus token satisfies `is_nucleus_segment`, and no token
joined into the onset (the non-stress tokens before the first nucleus-capable
token) satisfies it.  (Tokens joined into the coda can still be
nucleus-capable when the group contains a second vowel run.) -/
theorem nucleus_onset_pure (g : List Token)
    (h : (onset_nucleus_coda_for_syllable g).nucleus ≠ []) :
    is_nucleus_segment (onset_nucleus_coda_for_syllable g).nucleus = true ∧
    ∀ t ∈ ((stripStress g none).2.takeWhile (fun t => !is_nucleus_segment t)).filter
        (fun t => !tok_in t STRESS_MARKS), is_nucleus_segment t = false := by
  rcases hdd : (stripStress g none).2.dropWhile (fun t => !is_nucleus_segment t) with
    _ | ⟨nuc, post⟩
  · exfalso
    apply h
    simp only [onset_nucleus_coda_for_syllable, hdd]
  · constructor
    · have hnuceq : (onset_nucleus_coda_for_syllable g).nucleus = nuc := by
        simp only [onset_nucleus_coda_for_syllable, hdd]
      rw [hnuceq]
      have hne : (stripStress g none).2.dropWhile (fun t => !is_nucleus_segment t) ≠ [] := by
        rw [hdd]; exact List.cons_ne_nil nuc post
      have hhead := List.head_dropWhile_not (fun t => !is_nucleus_segment t)
        (stripStress g none).2 hne
      simp only [hdd, List.head_cons] at hhead
      simpa using hhead
    · intro t ht
      have ht1 := List.mem_of_mem_filter ht
      have ht2 := List.mem_takeWhile_imp ht1
      simpa using ht2

/-- Claim C3 (witness): the group `p a` has nucleus `a` and onset token `p`,
which is not nucleus-capable. -/
theorem nucleus_onset_pure_witness :
    is_nucleus_segment (onset_nucleus_coda_for_syllable [['p'], ['a']]).nucleus = true ∧
    ∀ t ∈ ((stripStress [['p'], ['a']] none).2.takeWhile
        (fun t => !is_nucleus_segment t)).filter
        (fun t => !tok_in t STRESS_MARKS), is_nucleus_segment t = false :=
  nucleus_onset_pure [['p'], ['a']] (by decide)

/-- Claim C3 (counterexample): the unsegmented input `pata` yields one
syllable group whose coda token list `[t, a]` contains the nucleus-capable
token `a`, refuting the claim that no coda token satisfies the nucleus
predicate. -/
theorem nucleus_in_coda :
    (split_into_syllables (tokenize_ipa ['p', 'a', 't', 'a'])).map
        merge_consecutive_vowels = [[['p'], ['a'], ['t'], ['a']]] ∧
    (onset_nucleus_coda_for_syllable [['p'], ['a'], ['t'], ['a']]).nucleus = ['a'] ∧
    (onset_nucleus_coda_for_syllable [['p'], ['a'], ['t'], ['a']]).coda = ['t', 'a'] ∧
    ((stripStress [['p'], ['a'], ['t'], ['a']] none).2.dropWhile
        (fun t => !is_nucleus_segment t)).tail.filter
        (fun t => !tok_in t STRESS_MARKS) = [['t'], ['a']] ∧
    is_nucleus_segment ['a'] = true := by
  decide

/-- Claim C4 (amended): when a nucleus-capable token is found, the
concatenation onset ++ nucleus ++ coda equals the concatenation of the
group's non-stress tokens in original order; in the degenerate case (no
nucleus-capable token) the onset is instead the whole group after leading
stress marks, interior stress marks included, and the coda is empty. -/
theorem onc_concat (g : List Token) :
    ((onset_nucleus_coda_for_syllable g).nucleus ≠ [] →
      (onset_nucleus_coda_for_syllable g).onset ++
        (onset_nucleus_coda_for_syllable g).nucleus ++
        (onset_nucleus_coda_for_syllable g).coda =
        ((g.filter (fun t => !tok_in t STRESS_MARKS)).flatten)) ∧
    ((onset_nucleus_coda_for_syllable g).nucleus = [] →
      (onset_nucleus_coda_for_syllable g).onset = (stripStress g none).2.flatten ∧
      (onset_nucleus_coda_for_syllable g).coda = []) := by
  rcases hdd : (stripStress g none).2.dropWhile (fun t => !is_nucleus_segment t) with
    _ | ⟨nuc, post⟩
  · constructor
    · intro h
      exfalso
      apply h
      simp only [onset_nucleus_coda_for_syllable, hdd]
    · intro _
      constructor <;> simp only [onset_nucleus_coda_for_syllable, hdd]
  · have hne : (stripStress g none).2.dropWhile (fun t => !is_nucleus_segment t) ≠ [] := by
      rw [hdd]; exact List.cons_ne_nil nuc post
    have hhead := List.head_dropWhile_not (fun t => !is_nucleus_segment t)
      (stripStress g none).2 hne
    simp only [hdd, List.head_cons] at hhead
    have hnucnuc : is_nucleus_segment nuc = true := by simpa using hhead
    constructor
    · intro _
      simp only [onset_nucleus_coda_for_syllable, hdd]
      rw [← filter_stripStress g none]
      have htoks : (stripStress g none).2 =
          ((stripStress g none).2.takeWhile (fun t => !is_nucleus_segment t)) ++
            nuc :: post := by
        conv_lhs => rw [← List.takeWhile_append_dropWhile
          (fun t => !is_nucleus_segment t) (stripStress g none).2]
        rw [hdd]
      have hnucns : (!tok_in nuc STRESS_MARKS) = true := by
        by_cases hh : tok_in nuc STRESS_MARKS = true
        · rw [stress_not_nucleus nuc hh] at hnucnuc
          exact Bool.noConfusion hnucnuc
        · simp [Bool.eq_false_iff.mpr hh]
      conv_rhs => rw [htoks]
      rw [flatten_filter_decomp _ _ _ hnucns]
    · intro hnl
      exfalso
      have hnuceq : (onset_nucleus_coda_for_syllable g).nucleus = nuc := by
        simp only [onset_nucleus_coda_for_syllable, hdd]
      rw [hnuceq] at hnl
      subst hnl
      exact absurd hnucnuc (by decide)

/-- Claim C4 (witness): a concrete group with onset, nucleus and coda. -/
theorem onc_concat_witness :
    (onset_nucleus_coda_for_syllable [['s'], ['a'], ['k']]).onset ++
      (onset_nucleus_coda_for_syllable [['s'], ['a'], ['k']]).nucleus ++
      (onset_nucleus_coda_for_syllable [['s'], ['a'], ['k']]).coda =
      (([['s'], ['a'], ['k']].filter (fun t => !tok_in t STRESS_MARKS)).flatten) :=
  (onc_concat [['s'], ['a'], ['k']]).1 (by decide)

/-- Claim C4 (counterexample): in the degenerate case the onset keeps an
interior stress mark, so the round-trip concatenation is NOT the non-stress
concatenation: for the group `p ˈ t` the onset is `pˈt` but the non-stress
tokens concatenate to `pt`. -/
theorem onc_concat_degenerate :
    (onset_nucleus_coda_for_syllable [['p'], ['ˈ'], ['t']]).onset ++
      (onset_nucleus_coda_for_syllable [['p'], ['ˈ'], ['t']]).nucleus ++
      (onset_nucleus_coda_for_syllable [['p'], ['ˈ'], ['t']]).coda ≠
      (([['p'], ['ˈ'], ['t']].filter (fun t => !tok_in t STRESS_MARKS)).flatten) := by
  decide

/-- Claim C7 (amended): on any input whose bracket-stripped form contains no
whitespace and no tie bar immediately after a length mark, concatenating all
tokens of `tokenize_ipa`, in order and omitting none, reproduces the
bracket-stripped input exactly. -/
theorem tokenize_concat_recovers (s : List Char)
    (h1 : ∀ c ∈ strip_brackets s, pyIsSpace c = false)
    (h2 : List.Chain' (fun a b => ¬(a ∈ LENGTH_MARKS ∧ b ∈ TIE_BARS))
      (strip_brackets s)) :
    (tokenize_ipa s).flatten = strip_brackets s := by
  unfold tokenize_ipa
  rw [tokenizeFuel_flatten (strip_brackets s).length (strip_brackets s) [] le_rfl h1 h2]
  simp

/-- Claim C7 (witness): a concrete whitespace-free, tie-safe input. -/
theorem tokenize_concat_recovers_witness :
    (tokenize_ipa ['s', 'a', 'ː', 'k']).flatten = strip_brackets ['s', 'a', 'ː', 'k'] :=
  tokenize_concat_recovers ['s', 'a', 'ː', 'k'] (by decide)
    (by
      have h : strip_brackets ['s', 'a', 'ː', 'k'] = ['s', 'a', 'ː', 'k'] := by decide
      rw [h]
      exact List.Chain.cons (by decide)
        (List.Chain.cons (by decide) (List.Chain.cons (by decide) List.Chain.nil)))

/-- Claim C7 (counterexample): the input `tː͡` (base, length mark, tie bar)
contains only recognized mark categories and no whitespace, yet the tokenizer
drops the final tie bar: the tie-bar branch consumes it, finds no following
character, and never appends it, so concatenating the tokens loses it. -/
theorem tokenize_drops_tie :
    (∀ c ∈ strip_brackets ['t', 'ː', '͡'], pyIsSpace c = false) ∧
    tokenize_ipa ['t', 'ː', '͡'] = [['t', 'ː']] ∧
    (tokenize_ipa ['t', 'ː', '͡']).flatten ≠ strip_brackets ['t', 'ː', '͡'] := by
  decide

/-- Pushing an accumulated group under the current one factors out of the
splitting loop. -/
theorem splitAux_decomp : ∀ (l : List Token) (c : List Token) (o : List (List Token)),
    splitAux l (c :: o) = splitAux l [c] ++ o := by
  intro l
  induction l with
  | nil => intro c o; rfl
  | cons t rest ih =>
    intro c o
    by_cases hb : tok_in t SYLLABLE_BREAKS = true
    · by_cases hce : c.isEmpty = true
      · simp only [splitAux, hb, hce, if_true]
        exact ih c o
      · have hce' : c.isEmpty = false := Bool.eq_false_iff.mpr hce
        simp only [splitAux, hb, hce', if_true, Bool.false_eq_true, if_false]
        rw [ih [] (c :: o), ih [] [c]]
        simp [List.append_assoc]
    · have hb' := Bool.eq_false_iff.mpr hb
      simp only [splitAux, hb', Bool.false_eq_true, if_false]
      exact ih (c ++ [t]) o

/-- Once the splitting loop holds a non-empty group, the final group list
contains a non-empty group. -/
theorem splitAux_exists_nonempty : ∀ (l : List Token) (c : List Token), c ≠ [] →
    ∃ g ∈ splitAux l [c], g ≠ [] := by
  intro l
  induction l with
  | nil =>
    intro c hc
    exact ⟨c, by simp [splitAux], hc⟩
  | cons t rest ih =>
    intro c hc
    by_cases hb : tok_in t SYLLABLE_BREAKS = true
    · have hce : c.isEmpty = false := by
        cases c with
        | nil => exact absurd rfl hc
        | cons x xs => rfl
      simp only [splitAux, hb, if_true, hce, Bool.false_eq_true, if_false]
      rw [splitAux_decomp rest [] [c]]
      exact ⟨c, List.mem_append.mpr (Or.inr (by simp)), hc⟩
    · have hb' := Bool.eq_false_iff.mpr hb
      simp only [splitAux, hb', Bool.false_eq_true, if_false]
      exact ih (c ++ [t]) (by simp)

/-- All groups produced by the splitting loop (from the initial state) are
empty exactly when every input token is a syllable break. -/
theorem splitAux_all_empty : ∀ (l : List Token),
    (∀ g ∈ splitAux l [[]], g = []) ↔ (∀ t ∈ l, tok_in t SYLLABLE_BREAKS = true) := by
  intro l
  induction l with
  | nil =>
    constructor
    · intro _ t ht
      exact absurd ht (List.not_mem_nil t)
    · intro _ g hg
      simpa [splitAux] using hg
  | cons t rest ih =>
    by_cases hb : tok_in t SYLLABLE_BREAKS = true
    · simp only [splitAux, hb, if_true, List.isEmpty_nil]
      constructor
      · intro hall x hx
        rcases List.mem_cons.mp hx with rfl | hx'
        · exact hb
        · exact (ih.mp hall) x hx'
      · intro hall
        exact ih.mpr (fun x hx => hall x (List.mem_cons_of_mem t hx))
    · have hb' := Bool.eq_false_iff.mpr hb
      simp only [splitAux, hb', Bool.false_eq_true, if_false]
      constructor
      · intro hall
        exfalso
        obtain ⟨g, hg, hgne⟩ := splitAux_exists_nonempty rest ([] ++ [t]) (by simp)
        exact hgne (hall g hg)
      · intro hall
        exact absurd (hall t (List.mem_cons_self t rest)) hb

/-- The syllable splitter returns no groups exactly when every token is a
syllable-break token. -/
theorem split_eq_nil_iff (tokens : List Token) :
    split_into_syllables tokens = [] ↔
      ∀ t ∈ tokens, tok_in t SYLLABLE_BREAKS = true := by
  unfold split_into_syllables
  rw [List.filter_eq_nil_iff]
  constructor
  · intro h
    apply (splitAux_all_empty tokens).mp
    intro g hg
    have := h g (List.mem_reverse.mpr hg)
    simpa using this
  · intro h g hg
    have hg' := List.mem_reverse.mp hg
    have hgnil := (splitAux_all_empty tokens).mpr h g hg'
    simp [hgnil]

/-- Claim C9 (amended): `pig_latin_from_ipa` returns the empty string exactly
when every token of the tokenized input is a syllable-break token (in
particular on empty or whitespace-only input, but also e.g. on `/` or `.`);
any input with a non-break token yields a non-empty output ending in `ei`. -/
theorem empty_output_iff_breaks (s : List Char) :
    pig_latin_from_ipa s = [] ↔
      ∀ t ∈ tokenize_ipa s, tok_in t SYLLABLE_BREAKS = true := by
  rw [← split_eq_nil_iff]
  rcases hseg : segment_word_onc s with _ | ⟨f, o⟩
  · simp only [pig_latin_from_ipa, hseg]
    unfold segment_word_onc at hseg
    constructor
    · intro _
      exact List.map_eq_nil_iff.mp hseg
    · intro _
      trivial
  · have hsne : split_into_syllables (tokenize_ipa s) ≠ [] := by
      intro h0
      unfold segment_word_onc at hseg
      rw [h0] at hseg
      exact List.noConfusion hseg
    simp only [pig_latin_from_ipa, hseg]
    apply iff_of_false
    · split
      · simp
      · split
        · simp
        · simp
    · exact hsne

/-- Claim C9 (counterexample): the input `/` is neither empty nor
whitespace-only, yet the output is the empty string (bracket stripping
reduces it to the empty string). -/
theorem empty_output_slash :
    pig_latin_from_ipa ['/'] = [] ∧
    ¬(['/'] = ([] : List Char) ∨ ∀ c ∈ ['/'], pyIsSpace c = true) := by
  decide
